import Mathlib

/-!
Verification development for the PQC operation resource-management layer
(`src/portal/mock-qynauth/src/python_app/optimization/`): the cache manager,
rate limiter, connection pool and batch processor.  Each Python class is
shallowly embedded: immutable constructor fields become a config structure,
the mutable fields become an explicit state threaded through the operations,
`time.time()` readings become explicit rational parameters, and Python dicts
become insertion-ordered association lists over `String` keys.
-/

namespace PortalOpt

/-! ## Association-list helpers (model of Python `dict` in insertion order) -/

/-- Look up the value stored under key `k` (first occurrence). -/
def assocFind {α : Type} (l : List (String × α)) (k : String) : Option α :=
  match l.find? (fun p => decide (p.1 = k)) with
  | some p => some p.2
  | none => none

/-- Python `d[k] = v`: replace in place if the key exists, else append. -/
def assocInsert {α : Type} (l : List (String × α)) (k : String) (v : α) :
    List (String × α) :=
  match l with
  | [] => [(k, v)]
  | p :: rest => if p.1 = k then (k, v) :: rest else p :: assocInsert rest k v

/-- Python `d.pop(k, None)`: remove the first binding of `k`, returning it. -/
def assocPop {α : Type} (l : List (String × α)) (k : String) :
    Option α × List (String × α) :=
  match l with
  | [] => (none, [])
  | p :: rest =>
    if p.1 = k then (some p.2, rest)
    else
      let r := assocPop rest k
      (r.1, p :: r.2)

/-! ## Cache manager (`cache_manager.py`) -/

/-- `CachePolicy` enum. -/
inductive CachePolicy where
  | lru
  | lfu
  | ttlPolicy
  deriving DecidableEq, Repr

/-- `CacheEntry` dataclass (the `metadata` dict, used only by `invalidate`,
is omitted; values are opaque and modelled as naturals). -/
structure CacheEntry where
  key : String
  value : ℕ
  created_at : ℚ
  last_accessed : ℚ
  access_count : ℕ
  ttl : Option ℚ
  size_bytes : ℕ
  deriving DecidableEq, Repr

/-- `CacheEntry.is_expired`: `time.time() - self.created_at > self.ttl`,
with `ttl is None` meaning never expired. -/
def CacheEntry.is_expired (e : CacheEntry) (t : ℚ) : Bool :=
  match e.ttl with
  | none => false
  | some tt => decide (tt < t - e.created_at)

/-- `CacheEntry.touch`: update access metadata. -/
def CacheEntry.touch (e : CacheEntry) (t : ℚ) : CacheEntry :=
  { e with last_accessed := t, access_count := e.access_count + 1 }

/-- The immutable constructor fields of `PQCCacheManager`
(`max_size`, `max_memory_bytes = max_memory_mb * 1024 * 1024`,
`default_ttl`, `policy`). -/
structure CacheConfig where
  max_size : ℕ
  max_memory_bytes : ℕ
  default_ttl : ℚ
  policy : CachePolicy
  deriving DecidableEq, Repr

/-- The mutable fields of `PQCCacheManager`: `_cache` (insertion-ordered
dict) and `_current_memory` (a Python int, possibly negative, so `ℤ`). -/
structure CacheState where
  cache : List (String × CacheEntry)
  current_memory : ℤ
  deriving DecidableEq, Repr

/-- The constructor: empty cache, zero memory. -/
def initCacheState : CacheState := ⟨[], 0⟩

/-- Sort key used by `_evict_entries` for the configured policy. -/
def policyKey (pol : CachePolicy) (e : CacheEntry) : ℚ :=
  match pol with
  | .lru => e.last_accessed
  | .lfu => (e.access_count : ℚ)
  | .ttlPolicy => e.created_at

/-- The selection loop of `_evict_entries`: walk the sorted entries; at each
step, stop if the (unchanged, since nothing has been removed yet) entry count
and memory figures already meet the targets, otherwise mark the key.  `cond`
is the loop's stop test, which does not vary during the loop because the
first loop of `_evict_entries` only accumulates keys. -/
def evictLoop (cond : Bool) : List String → List String → List String
  | [], acc => acc
  | k :: rest, acc =>
    if cond then acc
    else evictLoop cond rest (if k ∈ acc then acc else acc ++ [k])

/-- The removal loop of `_evict_entries`: `self._cache.pop(key, None)` for
each marked key, subtracting the removed entry's `size_bytes`. -/
def removeKeys : List (String × CacheEntry) × ℤ → List String →
    List (String × CacheEntry) × ℤ
  | st, [] => st
  | (c, mem), k :: rest =>
    match assocPop c k with
    | (some e, c') => removeKeys (c', mem - (e.size_bytes : ℤ)) rest
    | (none, c') => removeKeys (c', mem) rest

/-- `PQCCacheManager._evict_entries`.  Expired entries are marked first; the
policy-sorted walk then marks further keys while the stop test fails.  Note
that the stop test compares the not-yet-mutated `len(self._cache)` and
`self._current_memory` against the targets. -/
def evict_entries (cfg : CacheConfig) (s : CacheState) (required : ℕ) (t : ℚ) :
    CacheState :=
  if s.cache.isEmpty then s
  else
    let expired := (s.cache.filter (fun p => p.2.is_expired t)).map (fun p => p.1)
    let sorted := List.insertionSort
      (fun a b => policyKey cfg.policy a.2 ≤ policyKey cfg.policy b.2) s.cache
    let target_size : ℕ := cfg.max_size - 1
    let target_memory : ℤ := max 0 ((cfg.max_memory_bytes : ℤ) - (required : ℤ))
    let cond := decide (s.cache.length ≤ target_size) &&
      decide (s.current_memory ≤ target_memory)
    let toRemove := evictLoop cond (sorted.map (fun p => p.1)) expired
    let r := removeKeys (s.cache, s.current_memory) toRemove
    ⟨r.1, r.2⟩

/-- `PQCCacheManager.set` for a fingerprint `k`.  `value_size` stands for
`_calculate_size(value)` (the pickled length, supplied as an input).  The
`ttl or default_ttl` idiom maps `None` and `0` to the default. -/
def cacheSet (cfg : CacheConfig) (s : CacheState) (k : String) (value : ℕ)
    (value_size : ℕ) (ttl : Option ℚ) (t : ℚ) : CacheState :=
  let s :=
    if cfg.max_size ≤ s.cache.length ∨
        (cfg.max_memory_bytes : ℤ) < s.current_memory + (value_size : ℤ) then
      evict_entries cfg s value_size t
    else s
  let effTtl : ℚ :=
    match ttl with
    | none => cfg.default_ttl
    | some x => if x = 0 then cfg.default_ttl else x
  let entry : CacheEntry :=
    { key := k, value := value, created_at := t, last_accessed := t,
      access_count := 0, ttl := some effTtl, size_bytes := value_size }
  let s :=
    match assocFind s.cache k with
    | some old => { s with current_memory := s.current_memory - (old.size_bytes : ℤ) }
    | none => s
  { cache := assocInsert s.cache k entry,
    current_memory := s.current_memory + (value_size : ℤ) }

/-- `PQCCacheManager.get` for a fingerprint `k`: returns the cached value (or
`none` on miss) and the updated state.  An expired entry is popped; a hit is
touched. -/
def cacheGet (s : CacheState) (k : String) (t : ℚ) : Option ℕ × CacheState :=
  match assocFind s.cache k with
  | none => (none, s)
  | some e =>
    if e.is_expired t then
      (none, ⟨(assocPop s.cache k).2, s.current_memory - (e.size_bytes : ℤ)⟩)
    else
      (some e.value, ⟨assocInsert s.cache k (e.touch t), s.current_memory⟩)

/-- Total `size_bytes` of the stored entries. -/
def sumSizes (c : List (String × CacheEntry)) : ℕ :=
  (c.map (fun p => p.2.size_bytes)).sum

/-- Apply a sequence of `set` calls: each element is
`(key, value, value_size, ttl, time)`. -/
def setSeq (cfg : CacheConfig) (s : CacheState) :
    List (String × ℕ × ℕ × Option ℚ × ℚ) → CacheState
  | [] => s
  | (k, v, sz, ttl, t) :: rest => setSeq cfg (cacheSet cfg s k v sz ttl t) rest

/-- Invariant carried through `set` sequences: `_current_memory` agrees with
the stored sizes, keys are unique (as in a dict), and both capacity bounds
hold. -/
def CacheInv (cfg : CacheConfig) (s : CacheState) : Prop :=
  s.current_memory = (sumSizes s.cache : ℤ) ∧
  (s.cache.map Prod.fst).Nodup ∧
  s.cache.length ≤ cfg.max_size ∧
  sumSizes s.cache ≤ cfg.max_memory_bytes

/-! ## Rate limiter (`rate_limiter.py`) -/

/-- `RateLimitStrategy` enum. -/
inductive RateLimitStrategy where
  | fixed_window
  | sliding_window
  | token_bucket
  deriving DecidableEq, Repr

/-- `RateLimitConfig` dataclass. -/
structure RateLimitConfig where
  max_requests : ℕ
  time_window : ℚ
  strategy : RateLimitStrategy
  burst_allowance : ℕ
  cooldown_period : ℚ
  deriving DecidableEq, Repr

/-- `RateLimitState` dataclass.  A fresh state (from the `defaultdict`
factory) has `last_refill = time.time()` at the moment of creation. -/
structure RateLimitState where
  requests : List ℚ
  tokens : ℚ
  last_refill : ℚ
  blocked_until : ℚ
  total_requests : ℕ
  blocked_requests : ℕ
  deriving DecidableEq, Repr

/-- The `defaultdict(RateLimitState)` factory evaluated at time `t`. -/
def freshState (t : ℚ) : RateLimitState :=
  { requests := [], tokens := 0, last_refill := t, blocked_until := 0,
    total_requests := 0, blocked_requests := 0 }

/-- The immutable configuration of `PQCRateLimiter`: the library-wide default
plus per-operation overrides (`configure_operation` is not exercised
mid-sequence by any claim, so the override table is part of the config). -/
structure LimiterConfig where
  default_config : RateLimitConfig
  operation_configs : List (String × RateLimitConfig)
  deriving Repr

/-- `PQCRateLimiter._get_config`. -/
def get_config (lc : LimiterConfig) (operation : String) : RateLimitConfig :=
  match assocFind lc.operation_configs operation with
  | some c => c
  | none => lc.default_config

/-- The `_user_states` dict. -/
abbrev StatesMap := List (String × RateLimitState)

/-- The f-string key `f"{user_id}:{operation}"`. -/
def stateKey (user_id operation : String) : String :=
  user_id ++ ":" ++ operation

/-- `PQCRateLimiter._cleanup_old_requests`: pop from the front while the
head is older than `now - window` (the while loop stops at the first
timestamp inside the window). -/
def cleanup_old_requests (requests : List ℚ) (time_window t : ℚ) : List ℚ :=
  requests.dropWhile (fun r => decide (r < t - time_window))

/-- `PQCRateLimiter._check_sliding_window` (mutates `state.requests`). -/
def check_sliding_window (st : RateLimitState) (cfg : RateLimitConfig) (t : ℚ) :
    RateLimitState × Bool :=
  let reqs := cleanup_old_requests st.requests cfg.time_window t
  ({ st with requests := reqs }, decide (reqs.length < cfg.max_requests))

/-- Python `int()` truncation toward zero. -/
def pytrunc (q : ℚ) : ℤ :=
  if 0 ≤ q then ⌊q⌋ else ⌈q⌉

/-- `PQCRateLimiter._check_fixed_window`. -/
def check_fixed_window (st : RateLimitState) (cfg : RateLimitConfig) (t : ℚ) :
    RateLimitState × Bool :=
  let window_start : ℚ := (pytrunc (t / cfg.time_window) : ℚ) * cfg.time_window
  let requests_in_window :=
    (st.requests.filter (fun r => decide (window_start ≤ r))).length
  (st, decide (requests_in_window < cfg.max_requests))

/-- `PQCRateLimiter._check_token_bucket`: refill proportionally to the time
since `last_refill`, cap at `max_requests + burst_allowance`, then spend one
token if at least one is available. -/
def check_token_bucket (st : RateLimitState) (cfg : RateLimitConfig) (t : ℚ) :
    RateLimitState × Bool :=
  let time_passed := t - st.last_refill
  let tokens_to_add := time_passed * ((cfg.max_requests : ℚ) / cfg.time_window)
  let tokens :=
    min ((cfg.max_requests : ℚ) + (cfg.burst_allowance : ℚ)) (st.tokens + tokens_to_add)
  let st := { st with tokens := tokens, last_refill := t }
  if (1 : ℚ) ≤ tokens then ({ st with tokens := tokens - 1 }, true)
  else (st, false)

/-- `PQCRateLimiter.check_rate_limit` at clock reading `t` (all `time.time()`
readings within one call are modelled as the same instant).  Returns the
allow/deny decision and the updated `_user_states` map. -/
def check_rate_limit (lc : LimiterConfig) (states : StatesMap)
    (user_id operation : String) (t : ℚ) : Bool × StatesMap :=
  let cfg := get_config lc operation
  let key := stateKey user_id operation
  let st :=
    match assocFind states key with
    | some s => s
    | none => freshState t
  if t < st.blocked_until then
    (false, assocInsert states key
      { st with blocked_requests := st.blocked_requests + 1 })
  else
    let r :=
      match cfg.strategy with
      | .fixed_window => check_fixed_window st cfg t
      | .sliding_window => check_sliding_window st cfg t
      | .token_bucket => check_token_bucket st cfg t
    if r.2 then
      (true, assocInsert states key
        { r.1 with requests := r.1.requests ++ [t],
                   total_requests := r.1.total_requests + 1 })
    else
      (false, assocInsert states key
        { r.1 with blocked_requests := r.1.blocked_requests + 1,
                   blocked_until :=
                     if 0 < cfg.cooldown_period then t + cfg.cooldown_period
                     else r.1.blocked_until })

/-- Model of `str.startswith` on the character lists. -/
def strStartsWith (s p : String) : Bool :=
  p.data.isPrefixOf s.data

/-- `PQCRateLimiter.reset_user_limits`: delete one `user:operation` key, or
every key starting with `user_id + ":"` when `operation is None`. -/
def reset_user_limits (states : StatesMap) (user_id : String)
    (operation : Option String) : StatesMap :=
  match operation with
  | some op => states.filter (fun p => !(decide (p.1 = stateKey user_id op)))
  | none => states.filter (fun p => !(strStartsWith p.1 (user_id ++ ":")))

/-- Run a sequence of `check_rate_limit` calls for one `(user, operation)`
pair at the given times, collecting the boolean decisions. -/
def runCalls (lc : LimiterConfig) (states : StatesMap)
    (user_id operation : String) : List ℚ → List Bool
  | [] => []
  | t :: ts =>
    let r := check_rate_limit lc states user_id operation t
    r.1 :: runCalls lc r.2 user_id operation ts

/-- The call times at which `check_rate_limit` answers `True` in a sequence
of calls for one `(user, operation)` pair. -/
def allowedTimes (lc : LimiterConfig) (states : StatesMap)
    (user_id operation : String) : List ℚ → List ℚ
  | [] => []
  | t :: ts =>
    let r := check_rate_limit lc states user_id operation t
    (if r.1 then [t] else []) ++ allowedTimes lc r.2 user_id operation ts

/-! ## Batch processor (`batch_processor.py`) -/

/-- `BatchStrategy` enum. -/
inductive BatchStrategy where
  | size_based
  | time_based
  | hybrid
  deriving DecidableEq, Repr

/-- `BatchConfig` dataclass. -/
structure BatchConfig where
  max_batch_size : ℕ
  max_wait_time : ℚ
  strategy : BatchStrategy
  max_concurrent_batches : ℕ
  retry_attempts : ℕ
  retry_delay : ℚ
  deriving DecidableEq, Repr

/-- `BatchItem` dataclass (`data` is opaque, modelled as a natural;
`ident` models CPython's `id(item)`). -/
structure BatchItem where
  data : ℕ
  user_id : String
  operation : String
  created_at : ℚ
  attempts : ℕ
  ident : ℕ
  deriving DecidableEq, Repr

/-- The item key built in `submit`:
`f"{user_id}_{operation}_{time.time()}_{id(item)}"` — note the fresh
`time.time()` reading `t`, taken after the item was created. -/
def submitItemId (user_id operation : String) (t : ℚ) (ident : ℕ) : String :=
  user_id ++ "_" ++ operation ++ "_" ++ toString t ++ "_" ++ toString ident

/-- The item key rebuilt in `_execute_batch`:
`f"{item.user_id}_{item.operation}_{item.created_at}_{id(item)}"` — built
from `item.created_at`, the clock reading at item construction. -/
def execItemId (item : BatchItem) : String :=
  item.user_id ++ "_" ++ item.operation ++ "_" ++ toString item.created_at ++
    "_" ++ toString item.ident

/-- An `asyncio.Future` result handle: pending until `set_result` or
`set_exception` is called. -/
inductive FutureState where
  | pending
  | resolved (v : ℕ)
  | rejected (msg : String)
  deriving DecidableEq, Repr

/-- `future.done()`. -/
def FutureState.done : FutureState → Bool
  | .pending => false
  | _ => true

/-- The `_results` dict of pending result handles. -/
abbrev FuturesMap := List (String × FutureState)

/-- `self._results.get(item_id)`. -/
def lookupFuture (fs : FuturesMap) (k : String) : Option FutureState :=
  assocFind fs k

/-- `future.set_result(v)` guarded by `if future and not future.done()`. -/
def setResult (fs : FuturesMap) (k : String) (v : ℕ) : FuturesMap :=
  fs.map (fun p =>
    if decide (p.1 = k) && !p.2.done then (p.1, FutureState.resolved v) else p)

/-- `future.set_exception(msg)` guarded by `if future and not future.done()`. -/
def setException (fs : FuturesMap) (k : String) (msg : String) : FuturesMap :=
  fs.map (fun p =>
    if decide (p.1 = k) && !p.2.done then (p.1, FutureState.rejected msg) else p)

/-- The success fan-out of `_execute_batch`: `zip(batch_items, results)`
pairs positionally, and each item's handle is looked up under
`execItemId item` and resolved if still pending. -/
def resolveBatchResults (fs : FuturesMap) (items : List BatchItem)
    (results : List ℕ) : FuturesMap :=
  (items.zip results).foldl (fun acc pr => setResult acc (execItemId pr.1) pr.2) fs

/-- Outcome of the failure path of `_execute_batch`: the updated handles and
the items pushed back onto the pending queue. -/
structure FailureOutcome where
  futures : FuturesMap
  requeued : List BatchItem
  deriving DecidableEq, Repr

/-- The failure path of `_execute_batch` for the exception message `err`:
for each item whose handle (looked up under `execItemId item`) exists and is
pending, increment `attempts`; re-enqueue if `attempts < retry_attempts`,
otherwise reject the handle naming the attempt count and the last failure. -/
def handleBatchFailure (retry_attempts : ℕ) (err : String) :
    FuturesMap → List BatchItem → FailureOutcome
  | fs, [] => ⟨fs, []⟩
  | fs, item :: rest =>
    match lookupFuture fs (execItemId item) with
    | some FutureState.pending =>
      let item' := { item with attempts := item.attempts + 1 }
      if item'.attempts < retry_attempts then
        let out := handleBatchFailure retry_attempts err fs rest
        ⟨out.futures, item' :: out.requeued⟩
      else
        let fs' := setException fs (execItemId item)
          ("Batch processing failed after " ++ toString item'.attempts ++
            " attempts: " ++ err)
        let out := handleBatchFailure retry_attempts err fs' rest
        ⟨out.futures, out.requeued⟩
    | _ => handleBatchFailure retry_attempts err fs rest

/-- The mutable state read by `_process_batch`: the pending queue and the
number of entries of `_processing_batches` (the in-flight batches). -/
structure ProcState where
  pending : List BatchItem
  processingCount : ℕ
  deriving DecidableEq, Repr

/-- `PQCBatchProcessor._process_batch`: return unchanged when there is
nothing pending, or when `max_concurrent_batches` batches are already
executing; otherwise move up to `max_batch_size` items out of the pending
queue and start one more batch.  `flush` runs this in a loop while the
pending queue is non-empty, holding `_lock` and never suspending, so the
in-flight count cannot change during the loop. -/
def process_batch (cfg : BatchConfig) (s : ProcState) : ProcState :=
  if s.pending.isEmpty then s
  else if cfg.max_concurrent_batches ≤ s.processingCount then s
  else
    let batch := s.pending.take cfg.max_batch_size
    let rest := s.pending.drop cfg.max_batch_size
    if batch.isEmpty then { s with pending := rest }
    else { pending := rest, processingCount := s.processingCount + 1 }

/-! ## Connection pool (`connection_pool.py`) -/

/-- `ConnectionContext` dataclass (`metadata` omitted). -/
structure ConnectionContext where
  id : String
  created_at : ℚ
  operations_count : ℕ
  last_used : ℚ
  is_active : Bool
  deriving DecidableEq, Repr

/-- `PQCConnectionPool` state: the available FIFO queue (front = next handed
out) and the `_active_connections` registry. -/
structure PQCConnectionPool where
  max_connections : ℕ
  available : List ConnectionContext
  active : List (String × ConnectionContext)
  deriving DecidableEq, Repr

/-- Total contexts currently in the pool (available + active). -/
def PQCConnectionPool.totalCount (p : PQCConnectionPool) : ℕ :=
  p.available.length + p.active.length

/-- The acquisition step of `get_connection` at time `t`: take the front of
the available queue (when one is available; an empty queue models the
timeout path), stamp `last_used` and `operations_count`, and record the
context in the active registry. -/
def PQCConnectionPool.acquire (p : PQCConnectionPool) (t : ℚ) :
    Option (ConnectionContext × PQCConnectionPool) :=
  match p.available with
  | [] => none
  | c :: rest =>
    let c' := { c with last_used := t, operations_count := c.operations_count + 1 }
    some (c', { p with available := rest, active := assocInsert p.active c'.id c' })

/-- The `finally` block of `get_connection`: remove the held context from
the active registry and `put_nowait` it back, discarding it only if the
queue is already full.  `c` is the held object itself, so any mutation made
to it meanwhile (such as the sweep clearing `is_active`) rides along. -/
def PQCConnectionPool.release (p : PQCConnectionPool) (c : ConnectionContext) :
    PQCConnectionPool :=
  let active' := (assocPop p.active c.id).2
  if p.available.length < p.max_connections then
    { p with active := active', available := p.available ++ [c] }
  else
    { p with active := active' }

/-- `PQCConnectionPool._cleanup_stale_connections` at time `t`: pop from the
active registry every context idle for more than the 300-second threshold. -/
def PQCConnectionPool.cleanup_stale_connections (p : PQCConnectionPool) (t : ℚ) :
    PQCConnectionPool :=
  let stale_ids :=
    (p.active.filter (fun q => decide ((300 : ℚ) < t - q.2.last_used))).map
      (fun q => q.1)
  stale_ids.foldl
    (fun pool cid => { pool with active := (assocPop pool.active cid).2 }) p

/-- The contexts the sweep retires at time `t`, with `conn.is_active = False`
applied (the sweep mutates the shared objects; the registry entries are
dropped, but the holder of such a context still references it). -/
def sweepRetired (p : PQCConnectionPool) (t : ℚ) : List ConnectionContext :=
  ((p.active.filter (fun q => decide ((300 : ℚ) < t - q.2.last_used))).map
    (fun q => q.2)).map (fun c => { c with is_active := false })

/-! ## Concrete instances used by the theorems -/

/-- A one-entry cache state: one value cached at time 0 with `ttl = 10`. -/
def c7entry : CacheEntry :=
  { key := "k", value := 7, created_at := 0, last_accessed := 0,
    access_count := 0, ttl := some 10, size_bytes := 1 }

/-- Cache state holding exactly `c7entry` under key `"k"`. -/
def c7state : CacheState := ⟨[("k", c7entry)], 1⟩

/-- Limiter configured as in the spec's sliding-window property:
`max_requests = 5`, `time_window = 10 s`, no cooldown, no overrides. -/
def slidingCfg : LimiterConfig :=
  ⟨⟨5, 10, .sliding_window, 0, 0⟩, []⟩

/-- Limiter configured with the token-bucket strategy, no burst allowance,
no cooldown, no overrides. -/
def tbCfg (m : ℕ) (w : ℚ) : LimiterConfig :=
  ⟨⟨m, w, .token_bucket, 0, 0⟩, []⟩

/-- A fresh pool context, as created by `_initialize_pool` at time 0. -/
def c6conn : ConnectionContext :=
  { id := "conn_0", created_at := 0, operations_count := 0, last_used := 0,
    is_active := true }

/-- A pool of capacity 1 holding only `c6conn`. -/
def c6pool : PQCConnectionPool := ⟨1, [c6conn], []⟩

/-! ## Association-list lemmas -/

theorem assocFind_insert_self {α : Type} (l : List (String × α)) (k : String)
    (v : α) : assocFind (assocInsert l k v) k = some v := by
  induction l with
  | nil => simp [assocInsert, assocFind, List.find?]
  | cons p rest ih =>
    by_cases h : p.1 = k
    · simp [assocInsert, h, assocFind, List.find?]
    · simpa [assocInsert, h, assocFind, List.find?] using ih

theorem assocPop_fst {α : Type} (l : List (String × α)) (k : String) :
    (assocPop l k).1 = assocFind l k := by
  induction l with
  | nil => simp [assocPop, assocFind, List.find?]
  | cons p rest ih =>
    by_cases h : p.1 = k
    · simp [assocPop, h, assocFind, List.find?]
    · simpa [assocPop, h, assocFind, List.find?] using ih

theorem assocPop_snd_sublist {α : Type} (l : List (String × α)) (k : String) :
    (assocPop l k).2.Sublist l := by
  induction l with
  | nil => simp [assocPop]
  | cons p rest ih =>
    by_cases h : p.1 = k
    · simp [assocPop, h]
    · simpa [assocPop, h] using ih.cons₂ p

theorem mem_assocPop_ne {α : Type} (l : List (String × α)) (k : String)
    (hnd : (l.map Prod.fst).Nodup) {p : String × α}
    (hp : p ∈ (assocPop l k).2) : p.1 ≠ k := by
  induction l with
  | nil => simp [assocPop] at hp
  | cons q rest ih =>
    simp only [List.map_cons, List.nodup_cons] at hnd
    by_cases h : q.1 = k
    · simp only [assocPop, if_pos h] at hp
      intro hk
      exact hnd.1 (h ▸ hk ▸ List.mem_map_of_mem Prod.fst hp)
    · simp only [assocPop, if_neg h, List.mem_cons] at hp
      rcases hp with hp | hp
      · rw [hp]; exact h
      · exact ih hnd.2 hp

theorem assocFind_eq_none {α : Type} (l : List (String × α)) (k : String) :
    assocFind l k = none ↔ ∀ p ∈ l, p.1 ≠ k := by
  unfold assocFind
  constructor
  · intro h p hp
    cases hfind : l.find? (fun q => decide (q.1 = k)) with
    | none =>
      have := List.find?_eq_none.mp hfind p hp
      simpa using this
    | some q => rw [hfind] at h; simp at h
  · intro h
    cases hfind : l.find? (fun q => decide (q.1 = k)) with
    | none => simp
    | some q =>
      have hq := List.find?_some hfind
      have hmem := List.mem_of_find?_eq_some hfind
      simp only [decide_eq_true_eq] at hq
      exact absurd hq (h q hmem)

theorem assocFind_pop_self {α : Type} (l : List (String × α)) (k : String)
    (hnd : (l.map Prod.fst).Nodup) :
    assocFind (assocPop l k).2 k = none :=
  (assocFind_eq_none _ _).mpr (fun _ hp => mem_assocPop_ne l k hnd hp)

theorem assocPop_length_of_mem {α : Type} (l : List (String × α)) (k : String)
    (h : k ∈ l.map Prod.fst) : (assocPop l k).2.length + 1 = l.length := by
  induction l with
  | nil => simp at h
  | cons q rest ih =>
    by_cases hq : q.1 = k
    · simp [assocPop, hq]
    · have hk : k ∈ rest.map Prod.fst := by
        simp only [List.map_cons, List.mem_cons] at h
        rcases h with h | h
        · exact absurd h.symm hq
        · exact h
      simp [assocPop, hq, ← ih hk]

theorem assocPop_some_sum (l : List (String × CacheEntry)) (k : String)
    (e : CacheEntry) (l' : List (String × CacheEntry))
    (h : assocPop l k = (some e, l')) :
    sumSizes l' + e.size_bytes = sumSizes l ∧ l'.length + 1 = l.length := by
  induction l generalizing l' with
  | nil => simp [assocPop] at h
  | cons p rest ih =>
    by_cases hp : p.1 = k
    · simp only [assocPop, if_pos hp, Prod.mk.injEq, Option.some.injEq] at h
      rw [← h.1, ← h.2]
      simp [sumSizes, Nat.add_comm]
    · simp only [assocPop, if_neg hp, Prod.mk.injEq] at h
      rcases h with ⟨h1, h2⟩
      rcases ih ((assocPop rest k).2) (by rw [← h1]) with ⟨hs, hl⟩
      rw [← h2]
      constructor
      · simp only [sumSizes, List.map_cons, List.sum_cons] at hs ⊢
        omega
      · simpa using hl

theorem assocPop_none_snd (l : List (String × α)) (k : String)
    (h : (assocPop l k).1 = none) : (assocPop l k).2 = l := by
  induction l with
  | nil => simp [assocPop]
  | cons p rest ih =>
    by_cases hp : p.1 = k
    · simp [assocPop, hp] at h
    · simp only [assocPop, if_neg hp] at h ⊢
      rw [ih h]

theorem removeKeys_fst (ks : List String) (c : List (String × CacheEntry))
    (mem : ℤ) : (removeKeys (c, mem) ks).1.Sublist c := by
  induction ks generalizing c mem with
  | nil => simp [removeKeys]
  | cons k rest ih =>
    have hsub := assocPop_snd_sublist c k
    rcases hpop : assocPop c k with ⟨o, c'⟩
    rw [hpop] at hsub
    cases o with
    | none =>
      simp only [removeKeys, hpop]
      exact (ih c' _).trans hsub
    | some e =>
      simp only [removeKeys, hpop]
      exact (ih c' _).trans hsub

theorem removeKeys_sum (ks : List String) (c : List (String × CacheEntry)) :
    (removeKeys (c, (sumSizes c : ℤ)) ks).2 =
      (sumSizes (removeKeys (c, (sumSizes c : ℤ)) ks).1 : ℤ) := by
  induction ks generalizing c with
  | nil => simp [removeKeys]
  | cons k rest ih =>
    rcases hpop : assocPop c k with ⟨o, c'⟩
    cases o with
    | none =>
      have hc : c' = c := by
        have := assocPop_none_snd c k (by rw [hpop])
        rw [hpop] at this
        exact this
      simp only [removeKeys, hpop, hc]
      exact ih c
    | some e =>
      rcases assocPop_some_sum c k e c' hpop with ⟨hs, _⟩
      have hz : (sumSizes c : ℤ) - (e.size_bytes : ℤ) = (sumSizes c' : ℤ) := by
        omega
      simp only [removeKeys, hpop, hz]
      exact ih c'

theorem removeKeys_all (ks : List String) (c : List (String × CacheEntry))
    (mem : ℤ) (hall : ∀ p ∈ c, p.1 ∈ ks) (hnd : (c.map Prod.fst).Nodup) :
    (removeKeys (c, mem) ks).1 = [] := by
  induction ks generalizing c mem with
  | nil =>
    cases c with
    | nil => simp [removeKeys]
    | cons p rest => exact absurd (hall p (List.mem_cons_self p rest)) (by simp)
  | cons k rest ih =>
    have hsub := assocPop_snd_sublist c k
    have hall' : ∀ p ∈ (assocPop c k).2, p.1 ∈ rest := by
      intro p hp
      have hmem := hsub.mem hp
      have hne := mem_assocPop_ne c k hnd hp
      rcases List.mem_cons.mp (hall p hmem) with h | h
      · exact absurd h hne
      · exact h
    have hnd' : ((assocPop c k).2.map Prod.fst).Nodup :=
      (hsub.map Prod.fst).nodup hnd
    rcases hpop : assocPop c k with ⟨o, c'⟩
    rw [hpop] at hall' hnd'
    cases o with
    | none => simpa only [removeKeys, hpop] using ih c' mem hall' hnd'
    | some e => simpa only [removeKeys, hpop] using ih c' _ hall' hnd'

theorem mem_evictLoop_false (ks : List String) (acc : List String) (k : String)
    (h : k ∈ ks ∨ k ∈ acc) : k ∈ evictLoop false ks acc := by
  induction ks generalizing acc with
  | nil => simpa [evictLoop] using h.resolve_left (by simp)
  | cons k' rest ih =>
    simp only [evictLoop, if_neg (by simp : ¬ false = true)]
    refine ih _ ?_
    rcases h with h | h
    · rcases List.mem_cons.mp h with h | h
      · right
        subst h
        by_cases hk : k ∈ acc <;> simp [hk]
      · exact Or.inl h
    · right
      by_cases hk : k' ∈ acc <;> simp [hk, h]

theorem sumSizes_assocInsert_found (l : List (String × CacheEntry))
    (k : String) (e old : CacheEntry) (h : assocFind l k = some old) :
    sumSizes (assocInsert l k e) + old.size_bytes = sumSizes l + e.size_bytes ∧
    (assocInsert l k e).length = l.length := by
  induction l with
  | nil => simp [assocFind, List.find?] at h
  | cons p rest ih =>
    by_cases hp : p.1 = k
    · have hfind : List.find? (fun q => decide (q.1 = k)) (p :: rest) = some p :=
        List.find?_cons_of_pos _ (by simp [hp])
      have hold : p.2 = old := by
        simpa [assocFind, hfind] using h
      rw [← hold]
      simp only [assocInsert, if_pos hp]
      simp [sumSizes]
      omega
    · have h' : assocFind rest k = some old := by
        simpa [assocFind, List.find?, hp] using h
      rcases ih h' with ⟨hs, hl⟩
      simp only [assocInsert, if_neg hp]
      constructor
      · simp only [sumSizes, List.map_cons, List.sum_cons] at hs ⊢
        omega
      · simpa using hl

theorem assocInsert_of_forall_ne {α : Type} (l : List (String × α))
    (k : String) (v : α) (h : ∀ p ∈ l, p.1 ≠ k) :
    assocInsert l k v = l ++ [(k, v)] := by
  induction l with
  | nil => simp [assocInsert]
  | cons p rest ih =>
    have hp : p.1 ≠ k := h p (List.mem_cons_self p rest)
    simp only [assocInsert, if_neg hp, List.cons_append, List.cons.injEq,
      true_and]
    exact ih (fun q hq => h q (List.mem_cons_of_mem p hq))

theorem keys_assocInsert_subset {α : Type} (l : List (String × α)) (k : String)
    (v : α) (a : String) (h : a ∈ (assocInsert l k v).map Prod.fst) :
    a ∈ l.map Prod.fst ∨ a = k := by
  induction l with
  | nil => simpa [assocInsert] using h
  | cons p rest ih =>
    by_cases hp : p.1 = k
    · simp only [assocInsert, if_pos hp, List.map_cons, List.mem_cons] at h
      rcases h with h | h
      · exact Or.inr h
      · exact Or.inl (by simp [h])
    · simp only [assocInsert, if_neg hp, List.map_cons, List.mem_cons] at h
      rcases h with h | h
      · exact Or.inl (by simp [h])
      · rcases ih h with h | h
        · exact Or.inl (by simp [h])
        · exact Or.inr h

theorem nodup_assocInsert {α : Type} (l : List (String × α)) (k : String)
    (v : α) (hnd : (l.map Prod.fst).Nodup) :
    ((assocInsert l k v).map Prod.fst).Nodup := by
  induction l with
  | nil => simp [assocInsert]
  | cons p rest ih =>
    simp only [List.map_cons, List.nodup_cons] at hnd
    by_cases hp : p.1 = k
    · simp only [assocInsert, if_pos hp, List.map_cons, List.nodup_cons]
      exact ⟨by rw [← hp]; exact hnd.1, hnd.2⟩
    · simp only [assocInsert, if_neg hp, List.map_cons, List.nodup_cons]
      refine ⟨fun hmem => ?_, ih hnd.2⟩
      rcases keys_assocInsert_subset rest k v p.1 hmem with h | h
      · exact hnd.1 h
      · exact hp h

/-- When eviction is entered with the stop test already failing, the
selection loop (whose stop test reads the not-yet-mutated count and memory)
marks every entry, so eviction clears the whole cache. -/
theorem evict_entries_clears (cfg : CacheConfig) (s : CacheState)
    (required : ℕ) (t : ℚ) (hne : s.cache ≠ [])
    (hnd : (s.cache.map Prod.fst).Nodup)
    (hmem : s.current_memory = (sumSizes s.cache : ℤ))
    (hcond : ¬ (s.cache.length ≤ cfg.max_size - 1 ∧
      s.current_memory ≤ max 0 ((cfg.max_memory_bytes : ℤ) - (required : ℤ)))) :
    evict_entries cfg s required t = ⟨[], 0⟩ := by
  unfold evict_entries
  rw [if_neg (by simpa [List.isEmpty_iff] using hne)]
  have hc : (decide (s.cache.length ≤ cfg.max_size - 1) &&
      decide (s.current_memory ≤ max 0 ((cfg.max_memory_bytes : ℤ) - (required : ℤ))))
      = false := by
    simpa [Bool.and_eq_true, decide_eq_true_iff] using hcond
  simp only [hc]
  have hall : ∀ p ∈ s.cache,
      p.1 ∈ evictLoop false
        ((List.insertionSort
          (fun a b => policyKey cfg.policy a.2 ≤ policyKey cfg.policy b.2)
          s.cache).map (fun q => q.1))
        ((s.cache.filter (fun q => q.2.is_expired t)).map (fun q => q.1)) := by
    intro p hp
    refine mem_evictLoop_false _ _ _ (Or.inl ?_)
    have hmemSort : p ∈ List.insertionSort
        (fun a b => policyKey cfg.policy a.2 ≤ policyKey cfg.policy b.2)
        s.cache :=
      (List.perm_insertionSort _ s.cache).mem_iff.mpr hp
    exact List.mem_map_of_mem (fun q => q.1) hmemSort
  have h1 := removeKeys_all _ s.cache s.current_memory hall hnd
  have h2 := removeKeys_sum
    (evictLoop false
      ((List.insertionSort
        (fun a b => policyKey cfg.policy a.2 ≤ policyKey cfg.policy b.2)
        s.cache).map (fun q => q.1))
      ((s.cache.filter (fun q => q.2.is_expired t)).map (fun q => q.1)))
    s.cache
  rw [hmem] at h1 ⊢
  rw [h1] at h2
  simp only [sumSizes, List.map_nil, List.sum_nil, Nat.cast_zero] at h2
  exact congrArg₂ CacheState.mk h1 h2

/-- One `set` call preserves the cache invariant, provided the cache has at
least one slot and the incoming value fits in the memory budget alone. -/
theorem cacheSet_inv (cfg : CacheConfig) (s : CacheState) (k : String)
    (v value_size : ℕ) (ttl : Option ℚ) (t : ℚ) (hinv : CacheInv cfg s)
    (hms : 1 ≤ cfg.max_size) (hsz : value_size ≤ cfg.max_memory_bytes) :
    CacheInv cfg (cacheSet cfg s k v value_size ttl t) := by
  rcases hinv with ⟨hmem, hnd, hlen, hsum⟩
  unfold cacheSet
  by_cases htrig : cfg.max_size ≤ s.cache.length ∨
      (cfg.max_memory_bytes : ℤ) < s.current_memory + (value_size : ℤ)
  · rw [if_pos htrig]
    have hne : s.cache ≠ [] := by
      intro hnil
      rcases htrig with h | h
      · rw [hnil] at h
        simp at h
        omega
      · rw [hnil] at hmem
        simp [sumSizes] at hmem
        rw [hmem] at h
        omega
    have hcond : ¬ (s.cache.length ≤ cfg.max_size - 1 ∧
        s.current_memory ≤ max 0 ((cfg.max_memory_bytes : ℤ) - (value_size : ℤ))) := by
      rintro ⟨h1, h2⟩
      have hmax : max 0 ((cfg.max_memory_bytes : ℤ) - (value_size : ℤ)) =
          (cfg.max_memory_bytes : ℤ) - (value_size : ℤ) :=
        max_eq_right (by omega)
      rw [hmax] at h2
      rcases htrig with h | h
      · omega
      · omega
    rw [evict_entries_clears cfg s value_size t hne hnd hmem hcond]
    refine ⟨by simp [sumSizes, assocFind, assocInsert, List.find?], ?_, ?_, ?_⟩
    · simp [assocFind, assocInsert, List.find?]
    · simpa [assocFind, assocInsert, List.find?] using hms
    · simpa [sumSizes, assocFind, assocInsert, List.find?] using hsz
  · rw [if_neg htrig]
    push_neg at htrig
    rcases htrig with ⟨hlt, hfit⟩
    rcases hf : assocFind s.cache k with _ | old
    · simp only [hf]
      have hne : ∀ p ∈ s.cache, p.1 ≠ k := (assocFind_eq_none _ _).mp hf
      rw [assocInsert_of_forall_ne s.cache k _ hne]
      have hfit' : sumSizes s.cache + value_size ≤ cfg.max_memory_bytes := by
        omega
      refine ⟨?_, ?_, ?_, ?_⟩
      · simp [sumSizes, hmem]
      · have hknotin : k ∉ s.cache.map Prod.fst := by
          intro hk
          rcases List.mem_map.mp hk with ⟨p, hp, hpk⟩
          exact hne p hp hpk
        simp only [List.map_append, List.map_cons, List.map_nil]
        rw [List.nodup_append]
        exact ⟨hnd, List.nodup_singleton k, by simpa using hknotin⟩
      · simpa using hlt
      · simpa [sumSizes] using hfit'
    · simp only [hf]
      rcases sumSizes_assocInsert_found s.cache k
        { key := k, value := v, created_at := t, last_accessed := t,
          access_count := 0,
          ttl := some (match ttl with
            | none => cfg.default_ttl
            | some x => if x = 0 then cfg.default_ttl else x),
          size_bytes := value_size } old hf with ⟨hs, hl⟩
      change _ = sumSizes s.cache + value_size at hs
      refine ⟨?_, nodup_assocInsert s.cache k _ hnd, ?_, ?_⟩
      · simp only
        omega
      · simp only [hl]
        omega
      · simp only
        omega

/-- Invariant preservation over a sequence of `set` calls. -/
theorem setSeq_inv (cfg : CacheConfig)
    (ops : List (String × ℕ × ℕ × Option ℚ × ℚ)) (s : CacheState)
    (hinv : CacheInv cfg s) (hms : 1 ≤ cfg.max_size)
    (hsz : ∀ op ∈ ops, op.2.2.1 ≤ cfg.max_memory_bytes) :
    CacheInv cfg (setSeq cfg s ops) := by
  induction ops generalizing s with
  | nil => exact hinv
  | cons op rest ih =>
    rcases op with ⟨k, v, sz, ttl, t⟩
    exact ih (cacheSet cfg s k v sz ttl t)
      (cacheSet_inv cfg s k v sz ttl t hinv hms
        (hsz _ (List.mem_cons_self _ _)))
      (fun q hq => hsz q (List.mem_cons_of_mem _ hq))

/-- A fold that only rewrites the `active` registry leaves `available` and
`max_connections` unchanged; this is the shape of the staleness sweep. -/
theorem sweep_fold_available (ids : List String) (p : PQCConnectionPool) :
    (ids.foldl
      (fun pool cid => { pool with active := (assocPop pool.active cid).2 }) p).available
        = p.available ∧
    (ids.foldl
      (fun pool cid => { pool with active := (assocPop pool.active cid).2 }) p).max_connections
        = p.max_connections := by
  induction ids generalizing p with
  | nil => exact ⟨rfl, rfl⟩
  | cons i rest ih => simpa using ih _

/-- First sliding-window call for a fresh `(user, operation)` key: allowed,
and the state records the single timestamp. -/
theorem sliding_first (t : ℚ) (h0 : 0 ≤ t) :
    check_rate_limit slidingCfg [] "u" "op" t =
      (true, [("u:op", ⟨[t], 0, t, 0, 1, 0⟩)]) := by
  simp [check_rate_limit, get_config, assocFind, List.find?, freshState,
    check_sliding_window, cleanup_old_requests, assocInsert, slidingCfg,
    not_lt.mpr h0, show stateKey "u" "op" = "u:op" from rfl]

/-- A sliding-window call on an existing state whose stored timestamps all
survive the cleanup: allowed iff fewer than 5 are stored; on allow the call
time is appended, on deny only the block counter moves. -/
theorem sliding_step (reqs : List ℚ) (lr : ℚ) (n b : ℕ) (t : ℚ) (h0 : 0 ≤ t)
    (hclean : List.dropWhile (fun r => decide (r < t - 10)) reqs = reqs) :
    check_rate_limit slidingCfg [("u:op", ⟨reqs, 0, lr, 0, n, b⟩)] "u" "op" t =
      (decide (reqs.length < 5),
       if reqs.length < 5 then [("u:op", ⟨reqs ++ [t], 0, lr, 0, n + 1, b⟩)]
       else [("u:op", ⟨reqs, 0, lr, 0, n, b + 1⟩)]) := by
  by_cases hlen : reqs.length < 5
  · simp [check_rate_limit, get_config, assocFind, List.find?, freshState,
      check_sliding_window, cleanup_old_requests, assocInsert, slidingCfg,
      not_lt.mpr h0, hclean, hlen, show stateKey "u" "op" = "u:op" from rfl]
  · simp [check_rate_limit, get_config, assocFind, List.find?, freshState,
      check_sliding_window, cleanup_old_requests, assocInsert, slidingCfg,
      not_lt.mpr h0, hclean, hlen, show stateKey "u" "op" = "u:op" from rfl]

/-- First token-bucket call for a fresh `(user, operation)` key: the state
is created with `tokens = 0` and `last_refill` equal to the call time, the
refill adds `0 * rate = 0` tokens, the `tokens >= 1` test fails, and the
call is denied. -/
theorem token_first (m : ℕ) (w : ℚ) (t : ℚ) (h0 : 0 ≤ t) :
    check_rate_limit (tbCfg m w) [] "u" "op" t =
      (false, [("u:op", ⟨[], 0, t, 0, 0, 1⟩)]) := by
  have hmin : min ((m : ℚ)) ((0 : ℚ) + ((t - t) * ((m : ℚ) / w))) = 0 := by
    simp
  simp [check_rate_limit, get_config, assocFind, List.find?, freshState,
    check_token_bucket, assocInsert, tbCfg, not_lt.mpr h0, hmin,
    show ¬ ((1 : ℚ) ≤ 0) by norm_num,
    show stateKey "u" "op" = "u:op" from rfl]

/-- A token-bucket call on an existing state with no cooldown: refill up to
the cap, allow iff at least one token, spending it; on denial the refilled
token count and `last_refill` are still written back. -/
theorem token_step (m : ℕ) (w : ℚ) (st : RateLimitState) (t : ℚ)
    (hbu : st.blocked_until = 0) (h0 : 0 ≤ t) :
    check_rate_limit (tbCfg m w) [("u:op", st)] "u" "op" t =
      (decide ((1 : ℚ) ≤
        min ((m : ℚ)) (st.tokens + (t - st.last_refill) * ((m : ℚ) / w))),
       [("u:op",
         if (1 : ℚ) ≤
             min ((m : ℚ)) (st.tokens + (t - st.last_refill) * ((m : ℚ) / w)) then
           { st with
             tokens :=
               min ((m : ℚ)) (st.tokens + (t - st.last_refill) * ((m : ℚ) / w)) - 1,
             last_refill := t,
             requests := st.requests ++ [t],
             total_requests := st.total_requests + 1 }
         else
           { st with
             tokens :=
               min ((m : ℚ)) (st.tokens + (t - st.last_refill) * ((m : ℚ) / w)),
             last_refill := t,
             blocked_requests := st.blocked_requests + 1 })]) := by
  by_cases hx : (1 : ℚ) ≤
      min ((m : ℚ)) (st.tokens + (t - st.last_refill) * ((m : ℚ) / w))
  · simp [check_rate_limit, get_config, assocFind, List.find?,
      check_token_bucket, assocInsert, tbCfg, hbu, not_lt.mpr h0, hx,
      show stateKey "u" "op" = "u:op" from rfl]
  · simp [check_rate_limit, get_config, assocFind, List.find?,
      check_token_bucket, assocInsert, tbCfg, hbu, not_lt.mpr h0, hx,
      show stateKey "u" "op" = "u:op" from rfl]

/-- Invariant run for the token bucket: if the stored token count never
exceeds what a refill since `t1` could have accumulated, then every allowed
call comes at least `w / m` seconds after `t1`. -/
theorem token_allowed_bound (m : ℕ) (w : ℚ) (hm : 1 ≤ m) (hw : 0 < w)
    (t1 : ℚ) (ts : List ℚ) (st : RateLimitState) (hbu : st.blocked_until = 0)
    (htok : st.tokens ≤ (st.last_refill - t1) * ((m : ℚ) / w))
    (hts : ∀ t ∈ ts, 0 ≤ t) :
    ∀ t ∈ allowedTimes (tbCfg m w) [("u:op", st)] "u" "op" ts,
      w / (m : ℚ) ≤ t - t1 := by
  induction ts generalizing st with
  | nil => simp [allowedTimes]
  | cons t rest ih =>
    have h0 : 0 ≤ t := hts t (List.mem_cons_self t rest)
    have hrate : 0 < (m : ℚ) / w := by
      apply div_pos _ hw
      exact_mod_cast Nat.lt_of_lt_of_le Nat.zero_lt_one hm
    have hXle : min ((m : ℚ)) (st.tokens + (t - st.last_refill) * ((m : ℚ) / w))
        ≤ (t - t1) * ((m : ℚ) / w) := by
      refine (min_le_right _ _).trans ?_
      have : st.tokens + (t - st.last_refill) * ((m : ℚ) / w) ≤
          (st.last_refill - t1) * ((m : ℚ) / w) +
            (t - st.last_refill) * ((m : ℚ) / w) := by
        linarith
      calc st.tokens + (t - st.last_refill) * ((m : ℚ) / w)
          ≤ (st.last_refill - t1) * ((m : ℚ) / w) +
              (t - st.last_refill) * ((m : ℚ) / w) := this
        _ = (t - t1) * ((m : ℚ) / w) := by ring
    intro t' ht'
    simp only [allowedTimes, token_step m w st t hbu h0] at ht'
    by_cases hx : (1 : ℚ) ≤
        min ((m : ℚ)) (st.tokens + (t - st.last_refill) * ((m : ℚ) / w))
    · rw [if_pos hx] at ht'
      simp only [decide_eq_true hx, if_pos, List.singleton_append,
        List.mem_cons] at ht'
      rcases ht' with ht' | ht'
      · subst ht'
        have h1 : (1 : ℚ) ≤ (t' - t1) * ((m : ℚ) / w) := hx.trans hXle
        have := (div_le_iff₀ hrate).mpr h1
        rwa [one_div_div] at this
      · refine ih _ ?_ ?_ ?_ t' ht'
        · exact hbu
        · simp only
          refine (sub_le_self _ zero_le_one).trans ?_
          exact hXle
        · exact fun q hq => hts q (List.mem_cons_of_mem t hq)
    · rw [if_neg hx] at ht'
      simp only [decide_eq_false hx, Bool.false_eq_true, if_false,
        List.nil_append] at ht'
      refine ih _ ?_ ?_ ?_ t' ht'
      · exact hbu
      · simp only
        exact hXle
      · exact fun q hq => hts q (List.mem_cons_of_mem t hq)

/-! ## Claim theorems -/

/-- C8: with the sliding-window strategy at `max_requests = 5`,
`time_window = 10`, for a fresh `(user, operation)` key, six calls in
nondecreasing order spanning less than the window admit exactly the first
five and deny the sixth. -/
theorem sliding_window_five_of_six (t1 t2 t3 t4 t5 t6 : ℚ) (h0 : 0 ≤ t1)
    (h12 : t1 ≤ t2) (h23 : t2 ≤ t3) (h34 : t3 ≤ t4) (h45 : t4 ≤ t5)
    (h56 : t5 ≤ t6) (hspan : t6 - t1 < 10) :
    runCalls slidingCfg [] "u" "op" [t1, t2, t3, t4, t5, t6] =
      [true, true, true, true, true, false] := by
  have h02 : 0 ≤ t2 := h0.trans h12
  have h03 : 0 ≤ t3 := h02.trans h23
  have h04 : 0 ≤ t4 := h03.trans h34
  have h05 : 0 ≤ t5 := h04.trans h45
  have h06 : 0 ≤ t6 := h05.trans h56
  have hh2 : ¬ (t1 < t2 - 10) := by linarith
  have hh3 : ¬ (t1 < t3 - 10) := by linarith
  have hh4 : ¬ (t1 < t4 - 10) := by linarith
  have hh5 : ¬ (t1 < t5 - 10) := by linarith
  have hh6 : ¬ (t1 < t6 - 10) := by linarith
  have hc2 : List.dropWhile (fun r => decide (r < t2 - 10)) [t1] = [t1] := by
    simp [List.dropWhile_cons, hh2]
  have hc3 : List.dropWhile (fun r => decide (r < t3 - 10)) [t1, t2] =
      [t1, t2] := by
    simp [List.dropWhile_cons, hh3]
  have hc4 : List.dropWhile (fun r => decide (r < t4 - 10)) [t1, t2, t3] =
      [t1, t2, t3] := by
    simp [List.dropWhile_cons, hh4]
  have hc5 : List.dropWhile (fun r => decide (r < t5 - 10)) [t1, t2, t3, t4] =
      [t1, t2, t3, t4] := by
    simp [List.dropWhile_cons, hh5]
  have hc6 : List.dropWhile (fun r => decide (r < t6 - 10))
      [t1, t2, t3, t4, t5] = [t1, t2, t3, t4, t5] := by
    simp [List.dropWhile_cons, hh6]
  simp [runCalls, sliding_first t1 h0,
    sliding_step [t1] t1 1 0 t2 h02 hc2,
    sliding_step [t1, t2] t1 2 0 t3 h03 hc3,
    sliding_step [t1, t2, t3] t1 3 0 t4 h04 hc4,
    sliding_step [t1, t2, t3, t4] t1 4 0 t5 h05 hc5,
    sliding_step [t1, t2, t3, t4, t5] t1 5 0 t6 h06 hc6]

/-- Witness for C8 at call times 0,1,2,3,4,5. -/
theorem sliding_window_five_of_six_witness :
    runCalls slidingCfg [] "u" "op" [0, 1, 2, 3, 4, 5] =
      [true, true, true, true, true, false] :=
  sliding_window_five_of_six 0 1 2 3 4 5 (by decide) (by decide) (by decide)
    (by decide) (by decide) (by decide) (by norm_num)

/-- C9: token-bucket cold start.  For a `(user, operation)` key with no
prior state, the very first `check_rate_limit` call is denied: the fresh
`RateLimitState` has `tokens = 0` and `last_refill` equal to the current
time, so the refill adds zero tokens and the `tokens >= 1` test fails.
Moreover, over any sequence of calls, a call is admitted only at least
`time_window / max_requests` seconds after the state was created. -/
theorem token_bucket_cold_start (m : ℕ) (w : ℚ) (t1 : ℚ) (ts : List ℚ)
    (hm : 1 ≤ m) (hw : 0 < w) (h1 : 0 ≤ t1) (hts : ∀ t ∈ ts, 0 ≤ t) :
    (runCalls (tbCfg m w) [] "u" "op" (t1 :: ts)).head? = some false ∧
    ∀ t ∈ allowedTimes (tbCfg m w) [] "u" "op" (t1 :: ts),
      w / (m : ℚ) ≤ t - t1 := by
  constructor
  · simp [runCalls, token_first m w t1 h1]
  · intro t ht
    simp only [allowedTimes, token_first m w t1 h1, Bool.false_eq_true,
      if_false, List.nil_append] at ht
    refine token_allowed_bound m w hm hw t1 ts ⟨[], 0, t1, 0, 0, 1⟩ rfl ?_ hts
      t ht
    simp

/-- Witness for C9: `max_requests = 10`, `time_window = 10` (1 token/s),
calls at times 0 and 1 from a fresh key. -/
theorem token_bucket_cold_start_witness :
    (runCalls (tbCfg 10 10) [] "u" "op" [0, 1]).head? = some false ∧
    ∀ t ∈ allowedTimes (tbCfg 10 10) [] "u" "op" [0, 1],
      (10 : ℚ) / ((10 : ℕ) : ℚ) ≤ t - 0 :=
  token_bucket_cold_start 10 10 0 [1] (by decide) (by decide) (by decide)
    (by decide)

/-- C2 counterexample: the capacity claim fails as stated when a single
value is larger than the whole memory budget.  With
`max_memory_bytes = 10`, one `set` of a 20-byte value triggers eviction
(which finds the cache empty and returns), then inserts anyway, leaving
`sum(size_bytes) = 20 > 10`. -/
theorem cache_capacity_violated :
    (let cfg : CacheConfig := ⟨10, 10, 3600, .lru⟩
     let s := setSeq cfg initCacheState [("k", 7, 20, none, 0)]
     ¬ sumSizes s.cache ≤ cfg.max_memory_bytes) := by
  decide

/-- C2 as amended: provided the cache is constructed with at least one entry
slot (`max_size >= 1`) and every stored value's computed size fits in the
memory budget on its own (`size <= max_memory_bytes`), after any finite
sequence of `set` calls starting from a fresh cache the number of stored
entries is at most `max_size` and the sum of `size_bytes` over the stored
entries is at most `max_memory_bytes`. -/
theorem cache_capacity_invariant (cfg : CacheConfig)
    (ops : List (String × ℕ × ℕ × Option ℚ × ℚ)) (hms : 1 ≤ cfg.max_size)
    (hsz : ∀ op ∈ ops, op.2.2.1 ≤ cfg.max_memory_bytes) :
    (setSeq cfg initCacheState ops).cache.length ≤ cfg.max_size ∧
    sumSizes (setSeq cfg initCacheState ops).cache ≤ cfg.max_memory_bytes := by
  have hinv : CacheInv cfg (setSeq cfg initCacheState ops) :=
    setSeq_inv cfg ops initCacheState
      ⟨by simp [initCacheState, sumSizes], by simp [initCacheState],
       by simp [initCacheState], by simp [initCacheState, sumSizes]⟩
      hms hsz
  exact ⟨hinv.2.2.1, hinv.2.2.2⟩

/-- Witness for C2's amended invariant: three `set` calls (two distinct
keys, then an update of the first that triggers eviction by the memory
budget) on a cache with `max_size = 2`, `max_memory_bytes = 10`. -/
theorem cache_capacity_invariant_witness :
    (setSeq ⟨2, 10, 3600, .lru⟩ initCacheState
      [("a", 1, 4, none, 0), ("b", 2, 4, none, 1), ("a", 3, 5, none, 2)]).cache.length
        ≤ (2 : ℕ) ∧
    sumSizes (setSeq ⟨2, 10, 3600, .lru⟩ initCacheState
      [("a", 1, 4, none, 0), ("b", 2, 4, none, 1), ("a", 3, 5, none, 2)]).cache
        ≤ (10 : ℕ) :=
  cache_capacity_invariant ⟨2, 10, 3600, .lru⟩
    [("a", 1, 4, none, 0), ("b", 2, 4, none, 1), ("a", 3, 5, none, 2)]
    (by decide) (by decide)

/-- C6 counterexample: the claim says a sweep-retired context is never
again present in the available queue nor handed out, and that pool capacity
shrinks permanently.  On the code, the sweep only pops the context from the
active registry and clears `is_active` on the shared object; the holder's
`finally` block then puts that same object back into the available queue,
and a later `get_connection` hands it out again (its `is_active` flag is
never checked).  Concretely: acquire the only context at t=0, sweep at
t=301 (301 s idle > 300 s threshold), release, acquire again at t=400. -/
theorem stale_retired_context_reused :
    (let cHeld : ConnectionContext := ⟨"conn_0", 0, 1, 0, true⟩
     let pA : PQCConnectionPool := ⟨1, [], [("conn_0", cHeld)]⟩
     let cRet : ConnectionContext := ⟨"conn_0", 0, 1, 0, false⟩
     let pB : PQCConnectionPool := ⟨1, [], []⟩
     c6pool.acquire 0 = some (cHeld, pA) ∧
     pA.cleanup_stale_connections 301 = pB ∧
     sweepRetired pA 301 = [cRet] ∧
     pB.totalCount + 1 = pA.totalCount ∧
     (pB.release cRet).available = [cRet] ∧
     (pB.release cRet).acquire 400 =
       some (⟨"conn_0", 0, 2, 400, false⟩,
         ⟨1, [], [("conn_0", ⟨"conn_0", 0, 2, 400, false⟩)]⟩)) := by
  refine ⟨by decide, ?_, ?_, by decide, by decide, by decide⟩ <;>
    norm_num [PQCConnectionPool.cleanup_stale_connections, sweepRetired,
      assocPop, List.filter, c6pool, c6conn]

/-- C6 as amended: when the sweep retires the (single) stale active context
`c`, it removes it from the active registry, reports it with
`is_active = False`, and the total context count drops by one at that
moment; but the capacity loss is not permanent — when the holder of the
retired object later releases it (and the available queue has room), the
object is appended to the available queue, from which later acquisitions
hand it out again. -/
theorem stale_sweep_shrinks_until_release (p : PQCConnectionPool)
    (c : ConnectionContext) (t : ℚ)
    (hstale : p.active.filter
      (fun q => decide ((300 : ℚ) < t - q.2.last_used)) = [(c.id, c)])
    (hnd : (p.active.map Prod.fst).Nodup)
    (hroom : p.available.length < p.max_connections) :
    assocFind (p.cleanup_stale_connections t).active c.id = none ∧
    (p.cleanup_stale_connections t).totalCount + 1 = p.totalCount ∧
    sweepRetired p t = [{ c with is_active := false }] ∧
    ((p.cleanup_stale_connections t).release { c with is_active := false }).available
      = p.available ++ [{ c with is_active := false }] := by
  have hcl : p.cleanup_stale_connections t =
      { p with active := (assocPop p.active c.id).2 } := by
    unfold PQCConnectionPool.cleanup_stale_connections
    rw [hstale]
    rfl
  have hmem : (c.id, c) ∈ p.active :=
    List.mem_filter.mp (hstale ▸ List.mem_singleton.mpr rfl) |>.1
  have hkey : c.id ∈ p.active.map Prod.fst := List.mem_map_of_mem Prod.fst hmem
  refine ⟨?_, ?_, ?_, ?_⟩
  · rw [hcl]
    exact assocFind_pop_self p.active c.id hnd
  · rw [hcl]
    unfold PQCConnectionPool.totalCount
    simp only
    rw [Nat.add_assoc, assocPop_length_of_mem p.active c.id hkey]
  · unfold sweepRetired
    rw [hstale]
    rfl
  · rw [hcl]
    unfold PQCConnectionPool.release
    simp only
    rw [if_pos hroom]

/-- Witness for C6's amended theorem: the post-acquire pool of capacity 1
whose only context has been idle since t=0, swept at t=301. -/
theorem stale_sweep_shrinks_until_release_witness :
    (let cHeld : ConnectionContext := ⟨"conn_0", 0, 1, 0, true⟩
     let pA : PQCConnectionPool := ⟨1, [], [("conn_0", cHeld)]⟩
     assocFind (pA.cleanup_stale_connections 301).active cHeld.id = none ∧
     (pA.cleanup_stale_connections 301).totalCount + 1 = pA.totalCount ∧
     sweepRetired pA 301 = [{ cHeld with is_active := false }] ∧
     ((pA.cleanup_stale_connections 301).release
        { cHeld with is_active := false }).available
       = pA.available ++ [{ cHeld with is_active := false }]) :=
  stale_sweep_shrinks_until_release ⟨1, [], [("conn_0", ⟨"conn_0", 0, 1, 0, true⟩)]⟩
    ⟨"conn_0", 0, 1, 0, true⟩ 301
    (by norm_num [List.filter]) (by decide) (by decide)

/-- C3: LRU eviction order.  The claim fails on the code: with live entries
A (`last_accessed = 1`, 4 bytes) and B (`last_accessed = 2`, 4 bytes) in a
cache with `max_size = 10`, `max_memory_bytes = 10`, inserting a 4-byte
entry must free 2 bytes, and removing A alone meets both eviction targets —
yet the code removes B as well, because the selection loop's stop test reads
the not-yet-mutated entry count and memory, so once eviction starts it marks
every entry.  The final conjuncts certify the scenario: both entries are
live at the eviction time, A is least recently used, and removing only A
would satisfy both the entry-count and memory targets. -/
theorem lru_eviction_removes_survivor :
    (let cfg : CacheConfig := ⟨10, 10, 3600, .lru⟩
     let eA : CacheEntry := ⟨"A", 1, 0, 1, 0, some 100, 4⟩
     let eB : CacheEntry := ⟨"B", 2, 0, 2, 0, some 100, 4⟩
     let s : CacheState := ⟨[("A", eA), ("B", eB)], 8⟩
     let r := cacheSet cfg s "C" 3 4 none 3
     (assocFind r.cache "A" = none ∧ assocFind r.cache "B" = none) ∧
     (eA.is_expired 3 = false ∧ eB.is_expired 3 = false ∧
      eA.last_accessed < eB.last_accessed ∧
      s.cache.length - 1 ≤ cfg.max_size - 1 ∧
      s.current_memory - (eA.size_bytes : ℤ) ≤
        max 0 ((cfg.max_memory_bytes : ℤ) - 4))) := by
  refine ⟨⟨?_, ?_⟩, ?_, ?_, by norm_num, by decide, by decide⟩ <;>
    (norm_num [cacheSet, evict_entries, CacheEntry.is_expired, policyKey,
      List.insertionSort, List.orderedInsert, evictLoop, removeKeys, assocPop,
      assocFind, assocInsert, List.find?, List.filter] <;> decide)

/-- C7 counterexample: the claim says a `get` at `now = created_at + ttl`
is a miss (`now >= created_at + ttl`), but `is_expired` tests the strict
`time.time() - created_at > ttl`, so at exactly `now = 10` for an entry
created at 0 with `ttl = 10` the code returns a hit with the value. -/
theorem cache_get_at_exact_expiry_is_hit :
    (cacheGet c7state "k" 10).1 = some 7 ∧
    c7entry.created_at + 10 ≤ 10 := by
  constructor
  · norm_num [cacheGet, assocFind, c7state, c7entry, CacheEntry.is_expired,
      List.find?]
  · norm_num [c7entry]

/-- C7 as amended: for a stored entry with effective TTL `tt`, a `get` at
time `t` is a miss iff `created_at + tt < t` (strictly later than the expiry
instant, not at it); on such an expiry miss the entry is removed from the
map; and a non-expired hit returns the value and stores the entry with
`last_accessed = t` and `access_count` incremented. -/
theorem cache_get_expiry_boundary (s : CacheState) (k : String)
    (e : CacheEntry) (tt t : ℚ) (hfind : assocFind s.cache k = some e)
    (httl : e.ttl = some tt) (hnd : (s.cache.map Prod.fst).Nodup) :
    ((cacheGet s k t).1 = none ↔ e.created_at + tt < t) ∧
    (e.created_at + tt < t → assocFind (cacheGet s k t).2.cache k = none) ∧
    (¬ e.created_at + tt < t →
      (cacheGet s k t).1 = some e.value ∧
      assocFind (cacheGet s k t).2.cache k = some (e.touch t)) := by
  have hexp : e.is_expired t = true ↔ e.created_at + tt < t := by
    simp [CacheEntry.is_expired, httl, lt_sub_iff_add_lt, add_comm]
  by_cases h : e.created_at + tt < t
  · have hx : e.is_expired t = true := hexp.mpr h
    refine ⟨?_, fun _ => ?_, fun hc => absurd h hc⟩
    · simp [cacheGet, hfind, hx, h]
    · simp only [cacheGet, hfind, hx, if_true]
      exact assocFind_pop_self s.cache k hnd
  · have hx : e.is_expired t = false := by
      rcases Bool.eq_false_or_eq_true (e.is_expired t) with hb | hb
      · exact absurd (hexp.mp hb) h
      · exact hb
    refine ⟨?_, fun hc => absurd hc h, fun _ => ⟨?_, ?_⟩⟩
    · simp [cacheGet, hfind, hx, h]
    · simp [cacheGet, hfind, hx]
    · simp only [cacheGet, hfind, hx, Bool.false_eq_true, if_false]
      exact assocFind_insert_self s.cache k (e.touch t)

/-- Witness for C7: the amended boundary theorem applied to the concrete
one-entry cache `c7state` at time 11, where the entry (created 0, ttl 10)
is strictly past its expiry instant. -/
theorem cache_get_expiry_boundary_witness :
    ((cacheGet c7state "k" 11).1 = none ↔ c7entry.created_at + 10 < 11) ∧
    (c7entry.created_at + 10 < 11 →
      assocFind (cacheGet c7state "k" 11).2.cache "k" = none) ∧
    (¬ c7entry.created_at + 10 < 11 →
      (cacheGet c7state "k" 11).1 = some c7entry.value ∧
      assocFind (cacheGet c7state "k" 11).2.cache "k" =
        some (c7entry.touch 11)) :=
  cache_get_expiry_boundary c7state "k" c7entry 10 11 (by decide) (by decide)
    (by decide)

/-- C1: positional fan-out of batch results.  The claim fails on the code:
`submit` registers the result handle under a key built with a fresh
`time.time()` reading (here `1`), while `_execute_batch` rebuilds the key
from `item.created_at` (here `0`).  The two keys differ, the lookup misses,
and the registered handle is never resolved with `result[i]` — the fan-out
leaves the registry unchanged. -/
theorem batch_result_handle_never_resolved :
    resolveBatchResults [(submitItemId "u" "op" 1 0, FutureState.pending)]
      [⟨0, "u", "op", 0, 0, 0⟩] [42] =
      [(submitItemId "u" "op" 1 0, FutureState.pending)] ∧
    submitItemId "u" "op" 1 0 ≠ execItemId ⟨0, "u", "op", 0, 0, 0⟩ := by
  decide

/-- C5: the retry bound.  The claim fails on the code for the same key
mismatch as C1: on a batch failure the handler looks the handle up under
`execItemId` (built from `item.created_at = 0`) while it was registered
under the `submit`-time key (reading `1`).  The lookup misses, so with
`retry_attempts = 2` the item is neither re-enqueued nor rejected: it is
attempted once in total and its handle stays pending forever. -/
theorem batch_retry_never_reattempted :
    handleBatchFailure 2 "boom"
      [(submitItemId "u" "op" 1 0, FutureState.pending)]
      [⟨0, "u", "op", 0, 0, 0⟩] =
      ⟨[(submitItemId "u" "op" 1 0, FutureState.pending)], []⟩ ∧
    lookupFuture [(submitItemId "u" "op" 1 0, FutureState.pending)]
      (execItemId ⟨0, "u", "op", 0, 0, 0⟩) = none := by
  decide

/-- C4: `flush` termination.  The claim fails on the code: from any state
with a non-empty pending queue and `max_concurrent_batches` batches already
in flight, `_process_batch` returns without changing anything (the
concurrency gate), and `flush`'s `while self._pending_items` loop — which
holds `_lock` and never suspends, so the in-flight count cannot drop —
re-runs it forever: after any number of iterations the pending queue is
still non-empty. -/
theorem flush_loop_never_terminates (cfg : BatchConfig) (s : ProcState)
    (hp : s.pending ≠ []) (hc : cfg.max_concurrent_batches ≤ s.processingCount) :
    ∀ n : ℕ, ((process_batch cfg)^[n] s).pending ≠ [] := by
  have hfix : process_batch cfg s = s := by
    unfold process_batch
    rw [if_neg (by simp [hp]), if_pos hc]
  intro n
  rw [Function.iterate_fixed hfix]
  exact hp

/-- Witness for C4 at a concrete stuck state: the default config
(`max_concurrent_batches = 3`) with one pending item and three batches in
flight, after five loop iterations. -/
theorem flush_loop_never_terminates_witness :
    ((process_batch ⟨10, 1, .hybrid, 3, 2, 1/10⟩)^[5]
      (⟨[⟨0, "u", "op", 0, 0, 0⟩], 3⟩ : ProcState)).pending ≠ [] :=
  flush_loop_never_terminates ⟨10, 1, .hybrid, 3, 2, 1/10⟩
    ⟨[⟨0, "u", "op", 0, 0, 0⟩], 3⟩ (by decide) (by decide) 5

/-- C10: rate-limiter state is keyed by `user_id + ":" + operation`, so the
pairs `("a:x", "y")` and `("a", "x:y")` share one `RateLimitState` — with
`max_requests = 1` (sliding window, 10 s), a request by the first pair
consumes the quota and the second pair's request is denied — and
`reset_user_limits "a"` with no operation removes the state stored for the
distinct user `"a:b"` because its key starts with `"a:"`. -/
theorem rate_limit_key_collision :
    stateKey "a:x" "y" = stateKey "a" "x:y" ∧
    (let lc : LimiterConfig := ⟨⟨1, 10, .sliding_window, 0, 0⟩, []⟩
     let r1 := check_rate_limit lc [] "a:x" "y" 0
     let r2 := check_rate_limit lc r1.2 "a" "x:y" 1
     r1.1 = true ∧ r2.1 = false) ∧
    (assocFind (reset_user_limits [(stateKey "a:b" "c", freshState 0)] "a" none)
      (stateKey "a:b" "c") = none ∧
     assocFind [(stateKey "a:b" "c", freshState 0)] (stateKey "a:b" "c") ≠ none) := by
  have e1 : stateKey "a:x" "y" = "a:x:y" := rfl
  have e2 : stateKey "a" "x:y" = "a:x:y" := rfl
  refine ⟨rfl, ⟨by decide, ?_⟩, by decide, by decide⟩
  norm_num [check_rate_limit, get_config, assocFind, e1, e2, freshState,
    check_sliding_window, cleanup_old_requests, assocInsert, List.find?,
    List.dropWhile]

end PortalOpt
